import Mathlib

/-!
# Verification of the bootlick update-strategy planners and state codec

Shallow embedding of the bootlick bootloader toolkit (Rust) in Lean 4.

* `Slot`, `Page` (as `Nat`), `MemoryLocation`, `CopyOperation` embed the core
  data model of `src/lib.rs`.
* `Mem` is the page-granular content of the device; `copyOp` embeds the mock
  devices' `Device::copy` (`src/mock/single_scratch.rs`, `src/mock/tri_slot.rs`):
  read the `from_` page, overwrite the `to` page.
* `Copy`, `SwapSABS`, `SwapScootch` embed the strategy planners of
  `src/strategies/copy.rs`, `src/strategies/swap_sabs.rs`,
  `src/strategies/swap_scootch.rs`.
* `State` and its codec embed the bootloader state enum of
  `examples/stm32g4/bootloader/src/state.rs`, whose `serialize_into` /
  `deserialize_from` delegate to the postcard wire format (varint-tagged enum,
  `u8` as one byte, `u16` as a LEB128 varint).

Machine integers (`u16`, `u8`) are embedded as `Nat`; the theorems carry the
bounds showing no wrap-around / underflow is reachable in-contract, so the
`Nat` semantics coincides with the Rust semantics on all considered inputs.
-/

namespace Bootlick

/-- Image slot identifier (`Slot(pub u8)` in `src/lib.rs`). -/
structure Slot where
  val : Nat
deriving DecidableEq, Repr

/-- A (slot, page) pair, `MemoryLocation` in `src/lib.rs`.  `Page` is a `u16`
page index embedded as `Nat`. -/
structure MemoryLocation where
  slot : Slot
  page : Nat
deriving DecidableEq, Repr

/-- `CopyOperation` of `src/lib.rs`: erase `to` (if needed) and copy the page
`from_` to `to`, leaving `from_` intact.  (`from` is a reserved word in Lean.) -/
structure CopyOperation where
  from_ : MemoryLocation
  to_ : MemoryLocation
deriving DecidableEq, Repr

/-- Page-granular device contents: each memory location holds an abstract value. -/
abbrev Mem := MemoryLocation → Nat

/-- One `Device::copy` of the mock devices (`src/mock/single_scratch.rs`,
`src/mock/tri_slot.rs`): the value at `op.from_` overwrites the value at `op.to_`. -/
def copyOp (m : Mem) (op : CopyOperation) : Mem :=
  fun loc => if loc = op.to_ then m op.from_ else m loc

/-- Execute a planned sequence of copy operations in order. -/
def copyOps (m : Mem) (ops : List CopyOperation) : Mem :=
  ops.foldl copyOp m

/-- Execute steps `0, 1, …, n-1` of a plan, as the tests' `perform_copy` loop does. -/
def runSteps (plan : Nat → List CopyOperation) (m : Mem) : Nat → Mem
  | 0 => m
  | n + 1 => copyOps (runSteps plan m n) (plan n)

/-- Number of copy operations among steps `0, …, n-1` of a plan whose
destination is `loc` (the wear, in the sense of `WearTracker::increase`,
which counts writes to `op.to_`). -/
def destCount (plan : Nat → List CopyOperation) (n : Nat) (loc : MemoryLocation) : Nat :=
  ((List.range n).map (fun k => (plan k).countP (fun op => decide (op.to_ = loc)))).sum

/-- A contiguous block transfer: `n` single-page copies from slot `F` starting
at page `f0` to slot `T` starting at page `t0`.  Every per-step plan of `Copy`
and `SwapSABS` has this shape. -/
def blockOps (F T : Slot) (f0 t0 n : Nat) : List CopyOperation :=
  (List.range n).map (fun i => { from_ := ⟨F, f0 + i⟩, to_ := ⟨T, t0 + i⟩ })

lemma blockOps_succ (F T : Slot) (f0 t0 n : Nat) :
    blockOps F T f0 t0 (n + 1) =
      blockOps F T f0 t0 n ++ [{ from_ := ⟨F, f0 + n⟩, to_ := ⟨T, t0 + n⟩ }] := by
  simp [blockOps, List.range_succ]

lemma copyOps_append (m : Mem) (l₁ l₂ : List CopyOperation) :
    copyOps m (l₁ ++ l₂) = copyOps (copyOps m l₁) l₂ := by
  simp [copyOps, List.foldl_append]

lemma memloc_eq_iff {a b : MemoryLocation} : a = b ↔ a.slot = b.slot ∧ a.page = b.page := by
  cases a; cases b; simp [MemoryLocation.mk.injEq]

/-- Effect of a block transfer between two distinct slots: pages in the target
window receive the corresponding source page, everything else is unchanged. -/
lemma copyOps_blockOps {F T : Slot} (hFT : F ≠ T) (m : Mem) (f0 t0 n : Nat)
    (loc : MemoryLocation) :
    copyOps m (blockOps F T f0 t0 n) loc =
      if loc.slot = T ∧ t0 ≤ loc.page ∧ loc.page < t0 + n then
        m ⟨F, f0 + (loc.page - t0)⟩
      else m loc := by
  induction n generalizing loc with
  | zero =>
    simp only [blockOps, List.range_zero, List.map_nil, copyOps, List.foldl_nil]
    rw [if_neg]; rintro ⟨-, h1, h2⟩; omega
  | succ n ih =>
    rw [blockOps_succ, copyOps_append]
    show copyOp (copyOps m (blockOps F T f0 t0 n)) _ loc = _
    rw [copyOp]
    by_cases hloc : loc = (⟨T, t0 + n⟩ : MemoryLocation)
    · rw [if_pos hloc]
      show copyOps m (blockOps F T f0 t0 n) ⟨F, f0 + n⟩ = _
      rw [ih]
      rw [if_neg (by rintro ⟨h, -, -⟩; exact hFT h)]
      have h1 : loc.slot = T := by rw [hloc]
      have h2 : loc.page = t0 + n := by rw [hloc]
      rw [if_pos ⟨h1, by omega, by omega⟩]
      have h3 : f0 + (loc.page - t0) = f0 + n := by omega
      rw [h3]
    · rw [if_neg hloc, ih]
      have hne : ¬ (loc.slot = T ∧ loc.page = t0 + n) := fun h => hloc (memloc_eq_iff.mpr h)
      by_cases hc : loc.slot = T ∧ t0 ≤ loc.page ∧ loc.page < t0 + n
      · rw [if_pos hc, if_pos ⟨hc.1, hc.2.1, by omega⟩]
      · rw [if_neg hc, if_neg ?_]
        rintro ⟨a, b, c⟩
        have : loc.page ≠ t0 + n := fun hp => hne ⟨a, hp⟩
        exact hc ⟨a, b, by omega⟩

/-- `copyOps_blockOps` restated on a literal location, so that rewriting leaves
no structure projections behind. -/
lemma copyOps_blockOps' {F T : Slot} (hFT : F ≠ T) (m : Mem) (f0 t0 n : Nat)
    (ls : Slot) (lp : Nat) :
    copyOps m (blockOps F T f0 t0 n) ⟨ls, lp⟩ =
      if ls = T ∧ t0 ≤ lp ∧ lp < t0 + n then m ⟨F, f0 + (lp - t0)⟩ else m ⟨ls, lp⟩ :=
  copyOps_blockOps hFT m f0 t0 n ⟨ls, lp⟩

/-- Replaying a block transfer between distinct slots leaves the state unchanged:
the second pass reads the same (untouched) source pages. -/
lemma copyOps_blockOps_idem {F T : Slot} (hFT : F ≠ T) (m : Mem) (f0 t0 n : Nat) :
    copyOps (copyOps m (blockOps F T f0 t0 n)) (blockOps F T f0 t0 n) =
      copyOps m (blockOps F T f0 t0 n) := by
  funext loc
  rw [copyOps_blockOps hFT]
  by_cases h : loc.slot = T ∧ t0 ≤ loc.page ∧ loc.page < t0 + n
  · rw [if_pos h, copyOps_blockOps hFT,
      if_neg (by rintro ⟨hc, -, -⟩; exact hFT hc),
      copyOps_blockOps hFT, if_pos h]
  · rw [if_neg h]

/-- Replaying a single page copy is idempotent: the value it wrote is read back
unchanged (the source page holds the written value even if source = destination). -/
lemma copyOp_idem (op : CopyOperation) (m : Mem) :
    copyOp (copyOp m op) op = copyOp m op := by
  funext loc
  simp only [copyOp]
  by_cases hl : loc = op.to_ <;> simp [hl]

/-- Destination count of a block transfer: one for each page of the target window. -/
lemma countP_dest_blockOps (F T : Slot) (f0 t0 n : Nat) (loc : MemoryLocation) :
    (blockOps F T f0 t0 n).countP (fun op => decide (op.to_ = loc)) =
      if loc.slot = T ∧ t0 ≤ loc.page ∧ loc.page < t0 + n then 1 else 0 := by
  induction n with
  | zero =>
    simp only [blockOps, List.range_zero, List.map_nil, List.countP_nil]
    rw [if_neg (by rintro ⟨-, h1, h2⟩; omega)]
  | succ n ih =>
    rw [blockOps_succ, List.countP_append, ih]
    have hsing : ([{ from_ := ⟨F, f0 + n⟩, to_ := ⟨T, t0 + n⟩ }] :
        List CopyOperation).countP (fun op => decide (op.to_ = loc)) =
        if (⟨T, t0 + n⟩ : MemoryLocation) = loc then 1 else 0 := by
      simp [List.countP_cons]
    rw [hsing]
    by_cases hl : (⟨T, t0 + n⟩ : MemoryLocation) = loc
    · have h1 : loc.slot = T := by rw [← hl]
      have h2 : loc.page = t0 + n := by rw [← hl]
      rw [if_pos hl, if_neg (by rintro ⟨-, h3, h4⟩; omega),
        if_pos ⟨h1, by omega, by omega⟩]
    · rw [if_neg hl]
      have hne : ¬ (loc.slot = T ∧ loc.page = t0 + n) :=
        fun h => hl (memloc_eq_iff.mpr ⟨h.1.symm, h.2.symm⟩)
      by_cases hc : loc.slot = T ∧ t0 ≤ loc.page ∧ loc.page < t0 + n
      · rw [if_pos hc, if_pos ⟨hc.1, hc.2.1, by omega⟩]
      · rw [if_neg hc, if_neg ?_]
        rintro ⟨a, b, c⟩
        have : loc.page ≠ t0 + n := fun hp => hne ⟨a, hp⟩
        exact hc ⟨a, b, by omega⟩

lemma destCount_succ (plan : Nat → List CopyOperation) (n : Nat) (loc : MemoryLocation) :
    destCount plan (n + 1) loc =
      destCount plan n loc + (plan n).countP (fun op => decide (op.to_ = loc)) := by
  simp [destCount, List.range_succ]

lemma runSteps_succ (plan : Nat → List CopyOperation) (m : Mem) (n : Nat) :
    runSteps plan m (n + 1) = copyOps (runSteps plan m n) (plan n) := rfl

/-! ## The `Copy` strategy (`src/strategies/copy.rs`) -/

/-- `copy::Request`: the image to copy to the primary slot, plus an optional
backup used when the copied image fails to boot. -/
structure CopyRequest where
  slot_secondary : Slot
  slot_backup : Option Slot
deriving DecidableEq, Repr

/-- The `Copy` strategy value: request plus device geometry captured in `Copy::new`. -/
structure Copy where
  request : CopyRequest
  num_pages : Nat
  slot_primary : Slot
deriving DecidableEq, Repr

/-- `Copy::last_step`: one copy step; step 1 is the boot step. -/
def Copy.last_step (_ : Copy) : Nat := 1

/-- `Copy::plan`: for any step, copy every page of the secondary (source) slot
onto the corresponding page of the primary slot, in increasing page order. -/
def Copy.plan (s : Copy) (_step : Nat) : List CopyOperation :=
  (List.range s.num_pages).map (fun page =>
    { from_ := ⟨s.request.slot_secondary, page⟩, to_ := ⟨s.slot_primary, page⟩ })

/-- `Copy::revert`: a `Copy` from the backup slot if one was provided. -/
def Copy.revert (s : Copy) : Option Copy :=
  match s.request.slot_backup with
  | some slot_backup =>
    some { request := { slot_secondary := slot_backup, slot_backup := none },
           num_pages := s.num_pages, slot_primary := s.slot_primary }
  | none => none

lemma Copy.plan_eq (s : Copy) (step : Nat) :
    s.plan step = blockOps s.request.slot_secondary s.slot_primary 0 0 s.num_pages := by
  simp [Copy.plan, blockOps]

/-! ## The `SwapSABS` strategy (`src/strategies/swap_sabs.rs`) -/

/-- Rust's `u16::div_ceil`: ceiling division (for a positive divisor). -/
def divCeil (a b : Nat) : Nat := (a + b - 1) / b

/-- The logical phases of `SwapSABS` (`Phase` in `swap_sabs.rs`). -/
inductive SABSPhase where
  | A2S
  | B2A
  | S2B
deriving DecidableEq, Repr

/-- `Phase::from_step`: phase from `step % 3`, start page `(step / 3) * scratch_pages`. -/
def SABSPhase.from_step (step : Nat) (scratch_pages : Nat) : SABSPhase × Nat :=
  let destination : SABSPhase :=
    match step % 3 with
    | 0 => .A2S
    | 1 => .B2A
    | _ => .S2B
  let start := step / 3 * scratch_pages
  (destination, start)

/-- The `SwapSABS` strategy value: the request's secondary slot plus the device
geometry captured in `SwapSABS::new` (`num_pages` and `scratch_pages` are
`NonZeroU16` in the source; positivity is carried as a hypothesis). -/
structure SwapSABS where
  slot_secondary : Slot
  num_pages : Nat
  scratch_pages : Nat
  slot_primary : Slot
  slot_scratch : Slot
deriving DecidableEq, Repr

/-- `SwapSABS::last_step`: three steps for each of `⌈num_pages / scratch_pages⌉` blocks. -/
def SwapSABS.last_step (s : SwapSABS) : Nat :=
  let blocks := divCeil s.num_pages s.scratch_pages
  blocks * 3

/-- `SwapSABS::plan`: block transfer for the phase of `step`, moving
`min(pages_left, scratch_pages)` pages. -/
def SwapSABS.plan (s : SwapSABS) (step : Nat) : List CopyOperation :=
  let pt := SABSPhase.from_step step s.scratch_pages
  let from_to : MemoryLocation × MemoryLocation :=
    match pt.1 with
    | .A2S => (⟨s.slot_primary, pt.2⟩, ⟨s.slot_scratch, 0⟩)
    | .B2A => (⟨s.slot_secondary, pt.2⟩, ⟨s.slot_primary, pt.2⟩)
    | .S2B => (⟨s.slot_scratch, 0⟩, ⟨s.slot_secondary, pt.2⟩)
  let pages_left := s.num_pages - pt.2
  let pages_now := min pages_left s.scratch_pages
  (List.range pages_now).map (fun page =>
    { from_ := ⟨from_to.1.slot, from_to.1.page + page⟩,
      to_ := ⟨from_to.2.slot, from_to.2.page + page⟩ })

/-- `SwapSABS::revert`: reversion of swapping is the same operation. -/
def SwapSABS.revert (s : SwapSABS) : Option SwapSABS := some s

lemma SwapSABS.plan_A2S (s : SwapSABS) (step : Nat) (h : step % 3 = 0) :
    s.plan step = blockOps s.slot_primary s.slot_scratch (step / 3 * s.scratch_pages) 0
      (min (s.num_pages - step / 3 * s.scratch_pages) s.scratch_pages) := by
  simp [SwapSABS.plan, SABSPhase.from_step, h, blockOps]

lemma SwapSABS.plan_B2A (s : SwapSABS) (step : Nat) (h : step % 3 = 1) :
    s.plan step = blockOps s.slot_secondary s.slot_primary
      (step / 3 * s.scratch_pages) (step / 3 * s.scratch_pages)
      (min (s.num_pages - step / 3 * s.scratch_pages) s.scratch_pages) := by
  simp [SwapSABS.plan, SABSPhase.from_step, h, blockOps]

lemma SwapSABS.plan_S2B (s : SwapSABS) (step : Nat) (h : step % 3 = 2) :
    s.plan step = blockOps s.slot_scratch s.slot_secondary 0 (step / 3 * s.scratch_pages)
      (min (s.num_pages - step / 3 * s.scratch_pages) s.scratch_pages) := by
  simp [SwapSABS.plan, SABSPhase.from_step, h, blockOps]

/-! ## The `SwapScootch` strategy (`src/strategies/swap_scootch.rs`) -/

/-- The logical phases of `SwapScootch` (`Phase` in `swap_scootch.rs`). -/
inductive ScootchPhase where
  | Scootch (page : Nat)
  | ToPrimary (page : Nat)
  | ToSecondary (page : Nat)
deriving DecidableEq, Repr

/-- `Phase::from_step` of `swap_scootch.rs`.  The `u16` subtractions
`step - num_pages` and `num_pages - (step' / 2) - 1` are embedded as `Nat`
subtraction; the C10 theorem shows they never underflow for in-contract steps. -/
def ScootchPhase.from_step (step : Nat) (num_pages : Nat) : ScootchPhase :=
  if step < num_pages then
    .Scootch step
  else
    let step' := step - num_pages
    let page := num_pages - step' / 2 - 1
    if step' % 2 = 0 then .ToPrimary page else .ToSecondary page

/-- The `SwapScootch` strategy value. -/
structure SwapScootch where
  num_pages : Nat
  slot_primary : Slot
  slot_secondary : Slot
  slot_scratch : Slot
deriving DecidableEq, Repr

/-- `SwapScootch::scratch_location`: page 0 of the scratch slot. -/
def SwapScootch.scratch_location (s : SwapScootch) : MemoryLocation :=
  ⟨s.slot_scratch, 0⟩

/-- `SwapScootch::last_step = num_pages * 3`. -/
def SwapScootch.last_step (s : SwapScootch) : Nat := s.num_pages * 3

/-- `SwapScootch::plan`: a single copy operation per step. -/
def SwapScootch.plan (s : SwapScootch) (step : Nat) : CopyOperation :=
  match ScootchPhase.from_step step s.num_pages with
  | .Scootch page =>
    { from_ := ⟨s.slot_primary, page⟩,
      to_ := if page = 0 then s.scratch_location else ⟨s.slot_primary, page - 1⟩ }
  | .ToPrimary page =>
    { from_ := ⟨s.slot_secondary, page⟩, to_ := ⟨s.slot_primary, page⟩ }
  | .ToSecondary page =>
    { from_ := if page = 0 then s.scratch_location else ⟨s.slot_primary, page - 1⟩,
      to_ := ⟨s.slot_secondary, page⟩ }

/-- The per-step plan of `SwapScootch` as a one-element list (its `plan`
returns a single `CopyOperation`; the execution loop performs it once). -/
def SwapScootch.planList (s : SwapScootch) : Nat → List CopyOperation :=
  fun step => [s.plan step]

lemma SwapScootch.plan_scootch (s : SwapScootch) (k : Nat) (hk : k < s.num_pages) :
    s.plan k = { from_ := ⟨s.slot_primary, k⟩,
                 to_ := if k = 0 then ⟨s.slot_scratch, 0⟩ else ⟨s.slot_primary, k - 1⟩ } := by
  simp [SwapScootch.plan, ScootchPhase.from_step, hk, SwapScootch.scratch_location]

lemma SwapScootch.plan_toPrimary (s : SwapScootch) (k : Nat) (h1 : s.num_pages ≤ k)
    (h2 : (k - s.num_pages) % 2 = 0) :
    s.plan k = { from_ := ⟨s.slot_secondary, s.num_pages - (k - s.num_pages) / 2 - 1⟩,
                 to_ := ⟨s.slot_primary, s.num_pages - (k - s.num_pages) / 2 - 1⟩ } := by
  have hk : ¬ k < s.num_pages := by omega
  simp [SwapScootch.plan, ScootchPhase.from_step, hk, h2]

lemma SwapScootch.plan_toSecondary (s : SwapScootch) (k : Nat) (h1 : s.num_pages ≤ k)
    (h2 : (k - s.num_pages) % 2 = 1) :
    s.plan k = { from_ := if s.num_pages - (k - s.num_pages) / 2 - 1 = 0 then ⟨s.slot_scratch, 0⟩
                   else ⟨s.slot_primary, s.num_pages - (k - s.num_pages) / 2 - 1 - 1⟩,
                 to_ := ⟨s.slot_secondary, s.num_pages - (k - s.num_pages) / 2 - 1⟩ } := by
  have hk : ¬ k < s.num_pages := by omega
  have h2' : ¬ (k - s.num_pages) % 2 = 0 := by omega
  simp [SwapScootch.plan, ScootchPhase.from_step, hk, h2', SwapScootch.scratch_location]

/-! ## Arithmetic facts about `div_ceil` -/

lemma divCeil_mul_ge {N W : Nat} (hW : 0 < W) (hN : 0 < N) : N ≤ divCeil N W * W := by
  have hdm := Nat.div_add_mod (N + W - 1) W
  have hmod : (N + W - 1) % W < W := Nat.mod_lt _ hW
  have hc : divCeil N W * W = W * ((N + W - 1) / W) := by
    rw [divCeil, Nat.mul_comm]
  rw [hc]
  omega

lemma mul_lt_of_lt_divCeil {B N W : Nat} (hW : 0 < W) (hB : B < divCeil N W) :
    B * W < N := by
  have hdm := Nat.div_add_mod (N + W - 1) W
  have hmod : (N + W - 1) % W < W := Nat.mod_lt _ hW
  have hle : B + 1 ≤ (N + W - 1) / W := hB
  have hmul : W * (B + 1) ≤ W * ((N + W - 1) / W) := Nat.mul_le_mul_left _ hle
  have hs : W * (B + 1) = W * B + W := by ring
  have hcomm : W * B = B * W := Nat.mul_comm W B
  omega

/-! ## The SABS full-execution invariant -/

/-- After the `3 * B` steps of the first `B` blocks of `SwapSABS`, the first
`min (B * scratch_pages) num_pages` pages of primary and secondary have been
exchanged, and their remaining pages are untouched. -/
lemma sabs_invariant (s : SwapSABS) (m : Mem)
    (hN : 0 < s.num_pages) (hW : 0 < s.scratch_pages)
    (hPS : s.slot_primary ≠ s.slot_secondary)
    (hPSc : s.slot_primary ≠ s.slot_scratch)
    (hSSc : s.slot_secondary ≠ s.slot_scratch) :
    ∀ B, B ≤ divCeil s.num_pages s.scratch_pages → ∀ p : Nat,
      (runSteps s.plan m (3 * B) ⟨s.slot_primary, p⟩ =
        if p < min (B * s.scratch_pages) s.num_pages then m ⟨s.slot_secondary, p⟩
        else m ⟨s.slot_primary, p⟩) ∧
      (runSteps s.plan m (3 * B) ⟨s.slot_secondary, p⟩ =
        if p < min (B * s.scratch_pages) s.num_pages then m ⟨s.slot_primary, p⟩
        else m ⟨s.slot_secondary, p⟩) := by
  intro B
  induction B with
  | zero =>
    intro _ p
    constructor <;> simp [runSteps]
  | succ B ih =>
    intro hB p
    have hBlt : B < divCeil s.num_pages s.scratch_pages := by omega
    have hstart : B * s.scratch_pages < s.num_pages := mul_lt_of_lt_divCeil hW hBlt
    have hmul : (B + 1) * s.scratch_pages = B * s.scratch_pages + s.scratch_pages := by ring
    have ih' := ih (by omega)
    have ihP : ∀ pp : Nat, runSteps s.plan m (3 * B) ⟨s.slot_primary, pp⟩ =
        if pp < min (B * s.scratch_pages) s.num_pages then m ⟨s.slot_secondary, pp⟩
        else m ⟨s.slot_primary, pp⟩ := fun pp => (ih' pp).1
    have ihS2 : ∀ pp : Nat, runSteps s.plan m (3 * B) ⟨s.slot_secondary, pp⟩ =
        if pp < min (B * s.scratch_pages) s.num_pages then m ⟨s.slot_primary, pp⟩
        else m ⟨s.slot_secondary, pp⟩ := fun pp => (ih' pp).2
    have h1 : s.slot_scratch ≠ s.slot_secondary := Ne.symm hSSc
    have h2 : s.slot_secondary ≠ s.slot_primary := Ne.symm hPS
    have h3 : s.slot_primary ≠ s.slot_scratch := hPSc
    have h4 : s.slot_scratch ≠ s.slot_primary := Ne.symm hPSc
    have e1 : 3 * (B + 1) = 3 * B + 1 + 1 + 1 := by ring
    rw [e1, runSteps_succ, runSteps_succ, runSteps_succ]
    have q0 : (3 * B) % 3 = 0 := by omega
    have q0d : 3 * B / 3 = B := by omega
    have q1 : (3 * B + 1) % 3 = 1 := by omega
    have q1d : (3 * B + 1) / 3 = B := by omega
    have q2 : (3 * B + 1 + 1) % 3 = 2 := by omega
    have q2d : (3 * B + 1 + 1) / 3 = B := by omega
    rw [SwapSABS.plan_A2S s _ q0, SwapSABS.plan_B2A s _ q1, SwapSABS.plan_S2B s _ q2,
      q0d, q1d, q2d, hmul]
    generalize hG : B * s.scratch_pages = G at ihP ihS2 hstart ⊢
    constructor <;>
    · simp only [copyOps_blockOps' h1, copyOps_blockOps' h2, copyOps_blockOps' h3, ihP, ihS2]
      simp only [hPS, hPSc, hSSc, h1, h2, h3, h4, eq_self_iff_true, true_and, false_and,
        if_false, if_true]
      simp only [Nat.min_def]
      split_ifs <;>
        first
          | rfl
          | (exfalso; omega)
          | (congr 1; simp only [MemoryLocation.mk.injEq, eq_self_iff_true, true_and]; omega)

/-! ## The Scootch full-execution invariants -/

/-- After the first `k ≤ num_pages` scootch steps: page 0 of primary has been
saved to scratch (once step 0 ran), primary pages `0 … k-2` hold their right
neighbour's original contents, and everything else is untouched. -/
lemma scootch_phase_run (s : SwapScootch) (m : Mem)
    (hPSc : s.slot_primary ≠ s.slot_scratch) :
    ∀ k, k ≤ s.num_pages → ∀ ls lp,
      runSteps s.planList m k ⟨ls, lp⟩ =
        if ls = s.slot_scratch ∧ lp = 0 ∧ 0 < k then m ⟨s.slot_primary, 0⟩
        else if ls = s.slot_primary ∧ lp + 1 < k then m ⟨s.slot_primary, lp + 1⟩
        else m ⟨ls, lp⟩ := by
  intro k
  induction k with
  | zero =>
    intro _ ls lp
    simp only [runSteps]
    rw [if_neg (by rintro ⟨-, -, h⟩; omega), if_neg (by rintro ⟨-, h⟩; omega)]
  | succ k ihk =>
    intro hk ls lp
    have hkN : k < s.num_pages := by omega
    have hscP : s.slot_scratch ≠ s.slot_primary := Ne.symm hPSc
    rw [runSteps_succ]
    show copyOp (runSteps s.planList m k) (s.plan k) ⟨ls, lp⟩ = _
    rw [SwapScootch.plan_scootch s k hkN, copyOp]
    by_cases hk0 : k = 0
    · subst hk0
      simp only [if_pos rfl]
      by_cases hls1 : ls = s.slot_primary
      · subst hls1
        simp only [ihk (by omega)]
        simp only [MemoryLocation.mk.injEq, hPSc, hscP, eq_self_iff_true, true_and,
          false_and, and_false, if_false, if_true, ite_true, ite_false]
        split_ifs <;>
          first
            | rfl
            | omega
            | (congr 1; simp only [MemoryLocation.mk.injEq, eq_self_iff_true, true_and]; omega)
      · by_cases hls2 : ls = s.slot_scratch
        · subst hls2
          simp only [ihk (by omega)]
          simp only [MemoryLocation.mk.injEq, hPSc, hscP, eq_self_iff_true, true_and,
            false_and, and_false, if_false, if_true, ite_true, ite_false]
          split_ifs <;>
            first
              | rfl
              | omega
              | (congr 1; simp only [MemoryLocation.mk.injEq, eq_self_iff_true, true_and]; omega)
        · simp only [ihk (by omega)]
          simp only [MemoryLocation.mk.injEq, hls1, hls2, eq_self_iff_true, true_and,
            false_and, and_false, if_false, if_true, ite_true, ite_false]
    · rw [if_neg hk0]
      by_cases hls1 : ls = s.slot_primary
      · subst hls1
        simp only [ihk (by omega)]
        simp only [MemoryLocation.mk.injEq, hPSc, hscP, eq_self_iff_true, true_and,
          false_and, and_false, if_false, if_true, ite_true, ite_false]
        split_ifs <;>
          first
            | rfl
            | omega
            | (congr 1; simp only [MemoryLocation.mk.injEq, eq_self_iff_true, true_and]; omega)
      · by_cases hls2 : ls = s.slot_scratch
        · subst hls2
          simp only [ihk (by omega)]
          simp only [MemoryLocation.mk.injEq, hPSc, hscP, eq_self_iff_true, true_and,
            false_and, and_false, if_false, if_true, ite_true, ite_false]
          split_ifs <;>
            first
              | rfl
              | omega
              | (congr 1; simp only [MemoryLocation.mk.injEq, eq_self_iff_true, true_and]; omega)
        · simp only [ihk (by omega)]
          simp only [MemoryLocation.mk.injEq, hls1, hls2, eq_self_iff_true, true_and,
            false_and, and_false, if_false, if_true, ite_true, ite_false]

/-- After the scootch phase plus `2 * t` pairwise steps of `SwapScootch`:
pages `N-t … N-1` of primary and secondary hold each other's original
contents, lower primary pages are still shifted down by one, scratch page 0
holds the original primary page 0, and everything else is untouched. -/
lemma scootch_pairwise_run (s : SwapScootch) (m : Mem)
    (hN : 0 < s.num_pages)
    (hPS : s.slot_primary ≠ s.slot_secondary)
    (hPSc : s.slot_primary ≠ s.slot_scratch)
    (hSSc : s.slot_secondary ≠ s.slot_scratch) :
    ∀ t, t ≤ s.num_pages → ∀ ls lp,
      runSteps s.planList m (s.num_pages + 2 * t) ⟨ls, lp⟩ =
        if ls = s.slot_primary then
          (if s.num_pages - t ≤ lp ∧ lp < s.num_pages then m ⟨s.slot_secondary, lp⟩
           else if lp + 1 < s.num_pages then m ⟨s.slot_primary, lp + 1⟩
           else m ⟨s.slot_primary, lp⟩)
        else if ls = s.slot_secondary then
          (if s.num_pages - t ≤ lp ∧ lp < s.num_pages then m ⟨s.slot_primary, lp⟩
           else m ⟨s.slot_secondary, lp⟩)
        else if ls = s.slot_scratch ∧ lp = 0 then m ⟨s.slot_primary, 0⟩
        else m ⟨ls, lp⟩ := by
  have hSP : s.slot_secondary ≠ s.slot_primary := Ne.symm hPS
  have hScP : s.slot_scratch ≠ s.slot_primary := Ne.symm hPSc
  have hScS2 : s.slot_scratch ≠ s.slot_secondary := Ne.symm hSSc
  intro t
  induction t with
  | zero =>
    intro _ ls lp
    have h0 : s.num_pages + 2 * 0 = s.num_pages := by ring
    rw [h0, scootch_phase_run s m hPSc s.num_pages le_rfl ls lp]
    by_cases hls1 : ls = s.slot_primary
    · subst hls1
      simp only [MemoryLocation.mk.injEq, hPS, hPSc, hSSc, hSP, hScP, hScS2, hN,
        eq_self_iff_true, true_and, and_true, false_and, and_false, if_false, if_true,
        ite_true, ite_false] <;>
      first
        | rfl
        | omega
        | (split_ifs <;>
            first
              | rfl
              | omega
              | (congr 1; simp only [MemoryLocation.mk.injEq, eq_self_iff_true, true_and];
                  omega))
    · by_cases hls2 : ls = s.slot_secondary
      · subst hls2
        simp only [MemoryLocation.mk.injEq, hPS, hPSc, hSSc, hSP, hScP, hScS2, hN,
          eq_self_iff_true, true_and, and_true, false_and, and_false, if_false, if_true,
          ite_true, ite_false] <;>
        first
          | rfl
          | omega
          | (split_ifs <;>
              first
                | rfl
                | omega
                | (congr 1; simp only [MemoryLocation.mk.injEq, eq_self_iff_true, true_and];
                    omega))
      · by_cases hls3 : ls = s.slot_scratch
        · subst hls3
          simp only [MemoryLocation.mk.injEq, hPS, hPSc, hSSc, hSP, hScP, hScS2, hN,
            eq_self_iff_true, true_and, and_true, false_and, and_false, if_false, if_true,
            ite_true, ite_false] <;>
          first
            | rfl
            | omega
            | (split_ifs <;>
                first
                  | rfl
                  | omega
                  | (congr 1; simp only [MemoryLocation.mk.injEq, eq_self_iff_true, true_and];
                      omega))
        · simp only [MemoryLocation.mk.injEq, hls1, hls2, hls3, hN,
            eq_self_iff_true, true_and, and_true, false_and, and_false, if_false, if_true,
            ite_true, ite_false] <;>
          first
            | rfl
            | omega
            | (split_ifs <;>
                first
                  | rfl
                  | omega
                  | (congr 1; simp only [MemoryLocation.mk.injEq, eq_self_iff_true, true_and];
                      omega))
  | succ t iht =>
    intro ht ls lp
    have hp1 : s.plan (s.num_pages + 2 * t) =
        { from_ := ⟨s.slot_secondary, s.num_pages - t - 1⟩,
          to_ := ⟨s.slot_primary, s.num_pages - t - 1⟩ } := by
      rw [SwapScootch.plan_toPrimary s _ (by omega) (by omega)]
      have h : s.num_pages - (s.num_pages + 2 * t - s.num_pages) / 2 - 1 =
          s.num_pages - t - 1 := by omega
      rw [h]
    have hp2 : s.plan (s.num_pages + 2 * t + 1) =
        { from_ := if s.num_pages - t - 1 = 0 then ⟨s.slot_scratch, 0⟩
            else ⟨s.slot_primary, s.num_pages - t - 1 - 1⟩,
          to_ := ⟨s.slot_secondary, s.num_pages - t - 1⟩ } := by
      rw [SwapScootch.plan_toSecondary s _ (by omega) (by omega)]
      have h : s.num_pages - (s.num_pages + 2 * t + 1 - s.num_pages) / 2 - 1 =
          s.num_pages - t - 1 := by omega
      rw [h]
    have e1 : s.num_pages + 2 * (t + 1) = s.num_pages + 2 * t + 1 + 1 := by ring
    rw [e1, runSteps_succ, runSteps_succ]
    show copyOp (copyOp (runSteps s.planList m (s.num_pages + 2 * t))
      (s.plan (s.num_pages + 2 * t))) (s.plan (s.num_pages + 2 * t + 1)) ⟨ls, lp⟩ = _
    rw [hp1, hp2]
    simp only [copyOp]
    simp only [iht (by omega)]
    by_cases hp0 : s.num_pages - t - 1 = 0
    · simp only [hp0, eq_self_iff_true, ite_true, if_true]
      by_cases hls1 : ls = s.slot_primary
      · subst hls1
        simp only [MemoryLocation.mk.injEq, hPS, hPSc, hSSc, hSP, hScP, hScS2, hN,
          eq_self_iff_true, true_and, and_true, false_and, and_false, if_false, if_true,
          ite_true, ite_false] <;>
        first
          | rfl
          | omega
          | (split_ifs <;>
              first
                | rfl
                | omega
                | (congr 1; simp only [MemoryLocation.mk.injEq, eq_self_iff_true, true_and];
                    omega))
      · by_cases hls2 : ls = s.slot_secondary
        · subst hls2
          simp only [MemoryLocation.mk.injEq, hPS, hPSc, hSSc, hSP, hScP, hScS2, hN,
            eq_self_iff_true, true_and, and_true, false_and, and_false, if_false, if_true,
            ite_true, ite_false] <;>
          first
            | rfl
            | omega
            | (split_ifs <;>
                first
                  | rfl
                  | omega
                  | (congr 1; simp only [MemoryLocation.mk.injEq, eq_self_iff_true, true_and];
                      omega))
        · by_cases hls3 : ls = s.slot_scratch
          · subst hls3
            simp only [MemoryLocation.mk.injEq, hPS, hPSc, hSSc, hSP, hScP, hScS2, hN,
              eq_self_iff_true, true_and, and_true, false_and, and_false, if_false, if_true,
              ite_true, ite_false] <;>
            first
              | rfl
              | omega
              | (split_ifs <;>
                  first
                    | rfl
                    | omega
                    | (congr 1; simp only [MemoryLocation.mk.injEq, eq_self_iff_true, true_and];
                        omega))
          · simp only [MemoryLocation.mk.injEq, hls1, hls2, hls3, hN,
              eq_self_iff_true, true_and, and_true, false_and, and_false, if_false, if_true,
              ite_true, ite_false] <;>
            first
              | rfl
              | omega
              | (split_ifs <;>
                  first
                    | rfl
                    | omega
                    | (congr 1; simp only [MemoryLocation.mk.injEq, eq_self_iff_true, true_and];
                        omega))
    · simp only [if_neg hp0]
      by_cases hls1 : ls = s.slot_primary
      · subst hls1
        simp only [MemoryLocation.mk.injEq, hPS, hPSc, hSSc, hSP, hScP, hScS2, hN,
          eq_self_iff_true, true_and, and_true, false_and, and_false, if_false, if_true,
          ite_true, ite_false] <;>
        first
          | rfl
          | omega
          | (split_ifs <;>
              first
                | rfl
                | omega
                | (congr 1; simp only [MemoryLocation.mk.injEq, eq_self_iff_true, true_and];
                    omega))
      · by_cases hls2 : ls = s.slot_secondary
        · subst hls2
          simp only [MemoryLocation.mk.injEq, hPS, hPSc, hSSc, hSP, hScP, hScS2, hN,
            eq_self_iff_true, true_and, and_true, false_and, and_false, if_false, if_true,
            ite_true, ite_false] <;>
          first
            | rfl
            | omega
            | (split_ifs <;>
                first
                  | rfl
                  | omega
                  | (congr 1; simp only [MemoryLocation.mk.injEq, eq_self_iff_true, true_and];
                      omega))
        · by_cases hls3 : ls = s.slot_scratch
          · subst hls3
            simp only [MemoryLocation.mk.injEq, hPS, hPSc, hSSc, hSP, hScP, hScS2, hN,
              eq_self_iff_true, true_and, and_true, false_and, and_false, if_false, if_true,
              ite_true, ite_false] <;>
            first
              | rfl
              | omega
              | (split_ifs <;>
                  first
                    | rfl
                    | omega
                    | (congr 1; simp only [MemoryLocation.mk.injEq, eq_self_iff_true, true_and];
                        omega))
          · simp only [MemoryLocation.mk.injEq, hls1, hls2, hls3, hN,
              eq_self_iff_true, true_and, and_true, false_and, and_false, if_false, if_true,
              ite_true, ite_false] <;>
            first
              | rfl
              | omega
              | (split_ifs <;>
                  first
                    | rfl
                    | omega
                    | (congr 1; simp only [MemoryLocation.mk.injEq, eq_self_iff_true, true_and];
                        omega))
/-! ## Destination-count (wear) lemmas -/

/-- `countP_dest_blockOps` restated on a literal location. -/
lemma countP_dest_blockOps' (F T : Slot) (f0 t0 n : Nat) (ls : Slot) (lp : Nat) :
    (blockOps F T f0 t0 n).countP (fun op => decide (op.to_ = ⟨ls, lp⟩)) =
      if ls = T ∧ t0 ≤ lp ∧ lp < t0 + n then 1 else 0 :=
  countP_dest_blockOps F T f0 t0 n ⟨ls, lp⟩

lemma blockOps_length (F T : Slot) (f0 t0 n : Nat) : (blockOps F T f0 t0 n).length = n := by
  simp [blockOps]

lemma sum_range_ind (n j : Nat) :
    ((List.range n).map (fun k => if k = j then 1 else 0)).sum = if j < n then 1 else 0 := by
  induction n with
  | zero => simp
  | succ n ih =>
    rw [List.range_succ, List.map_append, List.sum_append, ih]
    simp only [List.map_cons, List.map_nil, List.sum_cons, List.sum_nil]
    split_ifs <;> omega

lemma sum_range_ind2 (n j1 j2 : Nat) (hne : j1 ≠ j2) :
    ((List.range n).map (fun k => if k = j1 ∨ k = j2 then 1 else 0)).sum =
      (if j1 < n then 1 else 0) + (if j2 < n then 1 else 0) := by
  induction n with
  | zero => simp
  | succ n ih =>
    rw [List.range_succ, List.map_append, List.sum_append, ih]
    simp only [List.map_cons, List.map_nil, List.sum_cons, List.sum_nil]
    split_ifs <;> omega

/-- For a one-operation-per-step plan, the destination count is a sum of
per-step indicators. -/
lemma destCount_single (plan1 : Nat → CopyOperation) (n : Nat) (loc : MemoryLocation) :
    destCount (fun k => [plan1 k]) n loc =
      ((List.range n).map (fun k => if (plan1 k).to_ = loc then 1 else 0)).sum := by
  unfold destCount
  congr 1
  refine List.map_congr_left (fun k _ => ?_)
  simp [List.countP_cons]

/-- Wear profile of the full SABS plan, by block count: after `3 * B` steps
each exchanged page of primary and secondary was written once, and scratch
page 0 was written `B` times. -/
lemma sabs_destCount (s : SwapSABS)
    (hW : 0 < s.scratch_pages)
    (hPS : s.slot_primary ≠ s.slot_secondary)
    (hPSc : s.slot_primary ≠ s.slot_scratch)
    (hSSc : s.slot_secondary ≠ s.slot_scratch) :
    ∀ B, B ≤ divCeil s.num_pages s.scratch_pages →
      (∀ p, destCount s.plan (3 * B) ⟨s.slot_primary, p⟩ =
        if p < min (B * s.scratch_pages) s.num_pages then 1 else 0) ∧
      (∀ p, destCount s.plan (3 * B) ⟨s.slot_secondary, p⟩ =
        if p < min (B * s.scratch_pages) s.num_pages then 1 else 0) ∧
      destCount s.plan (3 * B) ⟨s.slot_scratch, 0⟩ = B := by
  have hSP : s.slot_secondary ≠ s.slot_primary := Ne.symm hPS
  have hScP : s.slot_scratch ≠ s.slot_primary := Ne.symm hPSc
  have hScS2 : s.slot_scratch ≠ s.slot_secondary := Ne.symm hSSc
  intro B
  induction B with
  | zero =>
    intro _
    refine ⟨fun p => ?_, fun p => ?_, ?_⟩ <;> simp [destCount]
  | succ B ih =>
    intro hB
    have hBlt : B < divCeil s.num_pages s.scratch_pages := by omega
    have hstart : B * s.scratch_pages < s.num_pages := mul_lt_of_lt_divCeil hW hBlt
    have hmul : (B + 1) * s.scratch_pages = B * s.scratch_pages + s.scratch_pages := by ring
    obtain ⟨ihP, ihS2, ihSc⟩ := ih (by omega)
    have e1 : 3 * (B + 1) = 3 * B + 1 + 1 + 1 := by ring
    have q0 : (3 * B) % 3 = 0 := by omega
    have q0d : 3 * B / 3 = B := by omega
    have q1 : (3 * B + 1) % 3 = 1 := by omega
    have q1d : (3 * B + 1) / 3 = B := by omega
    have q2 : (3 * B + 1 + 1) % 3 = 2 := by omega
    have q2d : (3 * B + 1 + 1) / 3 = B := by omega
    refine ⟨fun p => ?_, fun p => ?_, ?_⟩ <;>
    · rw [e1, destCount_succ, destCount_succ, destCount_succ,
        SwapSABS.plan_A2S s _ q0, SwapSABS.plan_B2A s _ q1, SwapSABS.plan_S2B s _ q2,
        q0d, q1d, q2d]
      (try rw [hmul])
      rw [countP_dest_blockOps', countP_dest_blockOps', countP_dest_blockOps']
      (try rw [ihP p]); (try rw [ihS2 p]); (try rw [ihSc])
      simp only [hPS, hPSc, hSSc, hSP, hScP, hScS2, eq_self_iff_true, true_and,
        false_and, and_false, if_false, if_true, ite_true, ite_false]
      simp only [Nat.min_def]
      generalize hG : B * s.scratch_pages = G at hstart ⊢
      split_ifs <;> omega

/-- Wear profile of the full Scootch plan: primary pages `0 … N-2` are written
twice (once by the scootch shift, once by the pairwise phase), the last primary
page `N-1` only once, each secondary page once, and scratch page 0 once. -/
lemma scootch_destCount (s : SwapScootch) (hN : 0 < s.num_pages)
    (hPS : s.slot_primary ≠ s.slot_secondary)
    (hPSc : s.slot_primary ≠ s.slot_scratch)
    (hSSc : s.slot_secondary ≠ s.slot_scratch) :
    (∀ p, p + 1 < s.num_pages →
      destCount s.planList s.last_step ⟨s.slot_primary, p⟩ = 2) ∧
    destCount s.planList s.last_step ⟨s.slot_primary, s.num_pages - 1⟩ = 1 ∧
    (∀ p, p < s.num_pages →
      destCount s.planList s.last_step ⟨s.slot_secondary, p⟩ = 1) ∧
    destCount s.planList s.last_step ⟨s.slot_scratch, 0⟩ = 1 := by
  have hSP : s.slot_secondary ≠ s.slot_primary := Ne.symm hPS
  have hScP : s.slot_scratch ≠ s.slot_primary := Ne.symm hPSc
  have hScS2 : s.slot_scratch ≠ s.slot_secondary := Ne.symm hSSc
  have hlast : s.last_step = s.num_pages * 3 := rfl
  refine ⟨fun p hp => ?_, ?_, fun p hp => ?_, ?_⟩
  · -- primary page p, p + 1 < N: written at steps p+1 and N + 2*(N-p-1)
    have h0 : destCount s.planList s.last_step ⟨s.slot_primary, p⟩ =
        ((List.range s.last_step).map
          (fun k => if (s.plan k).to_ = ⟨s.slot_primary, p⟩ then 1 else 0)).sum :=
      destCount_single s.plan s.last_step _
    have hpt : ∀ k ∈ List.range s.last_step,
        (if (s.plan k).to_ = (⟨s.slot_primary, p⟩ : MemoryLocation) then 1 else 0) =
          (if k = p + 1 ∨ k = s.num_pages + 2 * (s.num_pages - p - 1) then 1 else 0) := by
      intro k hk
      rw [List.mem_range, hlast] at hk
      by_cases h1 : k < s.num_pages
      · rw [SwapScootch.plan_scootch s k h1]
        simp only [MemoryLocation.mk.injEq, hPS, hPSc, hSSc, hSP, hScP, hScS2,
          eq_self_iff_true, true_and, and_true, false_and, and_false, if_false, if_true,
          ite_true, ite_false]
        split_ifs <;>
        first
          | rfl
          | omega
          | (simp_all only [MemoryLocation.mk.injEq, eq_self_iff_true, true_and, and_true];
              omega)
          | simp_all only [MemoryLocation.mk.injEq, eq_self_iff_true, true_and, and_true]
      · by_cases h2 : (k - s.num_pages) % 2 = 0
        · rw [SwapScootch.plan_toPrimary s k (by omega) h2]
          simp only [MemoryLocation.mk.injEq, hPS, hPSc, hSSc, hSP, hScP, hScS2,
            eq_self_iff_true, true_and, and_true, false_and, and_false, if_false, if_true,
            ite_true, ite_false]
          split_ifs <;>
        first
          | rfl
          | omega
          | (simp_all only [MemoryLocation.mk.injEq, eq_self_iff_true, true_and, and_true];
              omega)
          | simp_all only [MemoryLocation.mk.injEq, eq_self_iff_true, true_and, and_true]
        · rw [SwapScootch.plan_toSecondary s k (by omega) (by omega)]
          simp only [MemoryLocation.mk.injEq, hPS, hPSc, hSSc, hSP, hScP, hScS2,
            eq_self_iff_true, true_and, and_true, false_and, and_false, if_false, if_true,
            ite_true, ite_false]
          split_ifs <;>
        first
          | rfl
          | omega
          | (simp_all only [MemoryLocation.mk.injEq, eq_self_iff_true, true_and, and_true];
              omega)
          | simp_all only [MemoryLocation.mk.injEq, eq_self_iff_true, true_and, and_true]
    rw [h0, List.map_congr_left hpt,
      sum_range_ind2 _ _ _ (by omega), hlast, if_pos (by omega), if_pos (by omega)]
  · -- primary page N-1: written only at step N
    have h0 : destCount s.planList s.last_step ⟨s.slot_primary, s.num_pages - 1⟩ =
        ((List.range s.last_step).map
          (fun k => if (s.plan k).to_ = ⟨s.slot_primary, s.num_pages - 1⟩ then 1 else 0)).sum :=
      destCount_single s.plan s.last_step _
    have hpt : ∀ k ∈ List.range s.last_step,
        (if (s.plan k).to_ = (⟨s.slot_primary, s.num_pages - 1⟩ : MemoryLocation) then 1 else 0) =
          (if k = s.num_pages then 1 else 0) := by
      intro k hk
      rw [List.mem_range, hlast] at hk
      by_cases h1 : k < s.num_pages
      · rw [SwapScootch.plan_scootch s k h1]
        simp only [MemoryLocation.mk.injEq, hPS, hPSc, hSSc, hSP, hScP, hScS2,
          eq_self_iff_true, true_and, and_true, false_and, and_false, if_false, if_true,
          ite_true, ite_false]
        split_ifs <;>
        first
          | rfl
          | omega
          | (simp_all only [MemoryLocation.mk.injEq, eq_self_iff_true, true_and, and_true];
              omega)
          | simp_all only [MemoryLocation.mk.injEq, eq_self_iff_true, true_and, and_true]
      · by_cases h2 : (k - s.num_pages) % 2 = 0
        · rw [SwapScootch.plan_toPrimary s k (by omega) h2]
          simp only [MemoryLocation.mk.injEq, hPS, hPSc, hSSc, hSP, hScP, hScS2,
            eq_self_iff_true, true_and, and_true, false_and, and_false, if_false, if_true,
            ite_true, ite_false]
          split_ifs <;>
        first
          | rfl
          | omega
          | (simp_all only [MemoryLocation.mk.injEq, eq_self_iff_true, true_and, and_true];
              omega)
          | simp_all only [MemoryLocation.mk.injEq, eq_self_iff_true, true_and, and_true]
        · rw [SwapScootch.plan_toSecondary s k (by omega) (by omega)]
          simp only [MemoryLocation.mk.injEq, hPS, hPSc, hSSc, hSP, hScP, hScS2,
            eq_self_iff_true, true_and, and_true, false_and, and_false, if_false, if_true,
            ite_true, ite_false]
          split_ifs <;>
        first
          | rfl
          | omega
          | (simp_all only [MemoryLocation.mk.injEq, eq_self_iff_true, true_and, and_true];
              omega)
          | simp_all only [MemoryLocation.mk.injEq, eq_self_iff_true, true_and, and_true]
    rw [h0, List.map_congr_left hpt, sum_range_ind, hlast, if_pos (by omega)]
  · -- secondary page p < N: written only at step N + 2*(N-p-1) + 1
    have h0 : destCount s.planList s.last_step ⟨s.slot_secondary, p⟩ =
        ((List.range s.last_step).map
          (fun k => if (s.plan k).to_ = ⟨s.slot_secondary, p⟩ then 1 else 0)).sum :=
      destCount_single s.plan s.last_step _
    have hpt : ∀ k ∈ List.range s.last_step,
        (if (s.plan k).to_ = (⟨s.slot_secondary, p⟩ : MemoryLocation) then 1 else 0) =
          (if k = s.num_pages + 2 * (s.num_pages - p - 1) + 1 then 1 else 0) := by
      intro k hk
      rw [List.mem_range, hlast] at hk
      by_cases h1 : k < s.num_pages
      · rw [SwapScootch.plan_scootch s k h1]
        simp only [MemoryLocation.mk.injEq, hPS, hPSc, hSSc, hSP, hScP, hScS2,
          eq_self_iff_true, true_and, and_true, false_and, and_false, if_false, if_true,
          ite_true, ite_false]
        split_ifs <;>
        first
          | rfl
          | omega
          | (simp_all only [MemoryLocation.mk.injEq, eq_self_iff_true, true_and, and_true];
              omega)
          | simp_all only [MemoryLocation.mk.injEq, eq_self_iff_true, true_and, and_true]
      · by_cases h2 : (k - s.num_pages) % 2 = 0
        · rw [SwapScootch.plan_toPrimary s k (by omega) h2]
          simp only [MemoryLocation.mk.injEq, hPS, hPSc, hSSc, hSP, hScP, hScS2,
            eq_self_iff_true, true_and, and_true, false_and, and_false, if_false, if_true,
            ite_true, ite_false]
          split_ifs <;>
        first
          | rfl
          | omega
          | (simp_all only [MemoryLocation.mk.injEq, eq_self_iff_true, true_and, and_true];
              omega)
          | simp_all only [MemoryLocation.mk.injEq, eq_self_iff_true, true_and, and_true]
        · rw [SwapScootch.plan_toSecondary s k (by omega) (by omega)]
          simp only [MemoryLocation.mk.injEq, hPS, hPSc, hSSc, hSP, hScP, hScS2,
            eq_self_iff_true, true_and, and_true, false_and, and_false, if_false, if_true,
            ite_true, ite_false]
          split_ifs <;>
        first
          | rfl
          | omega
          | (simp_all only [MemoryLocation.mk.injEq, eq_self_iff_true, true_and, and_true];
              omega)
          | simp_all only [MemoryLocation.mk.injEq, eq_self_iff_true, true_and, and_true]
    rw [h0, List.map_congr_left hpt, sum_range_ind, hlast, if_pos (by omega)]
  · -- scratch page 0: written only at step 0
    have h0 : destCount s.planList s.last_step ⟨s.slot_scratch, 0⟩ =
        ((List.range s.last_step).map
          (fun k => if (s.plan k).to_ = ⟨s.slot_scratch, 0⟩ then 1 else 0)).sum :=
      destCount_single s.plan s.last_step _
    have hpt : ∀ k ∈ List.range s.last_step,
        (if (s.plan k).to_ = (⟨s.slot_scratch, 0⟩ : MemoryLocation) then 1 else 0) =
          (if k = 0 then 1 else 0) := by
      intro k hk
      rw [List.mem_range, hlast] at hk
      by_cases h1 : k < s.num_pages
      · rw [SwapScootch.plan_scootch s k h1]
        simp only [MemoryLocation.mk.injEq, hPS, hPSc, hSSc, hSP, hScP, hScS2,
          eq_self_iff_true, true_and, and_true, false_and, and_false, if_false, if_true,
          ite_true, ite_false]
        split_ifs <;>
        first
          | rfl
          | omega
          | (simp_all only [MemoryLocation.mk.injEq, eq_self_iff_true, true_and, and_true];
              omega)
          | simp_all only [MemoryLocation.mk.injEq, eq_self_iff_true, true_and, and_true]
      · by_cases h2 : (k - s.num_pages) % 2 = 0
        · rw [SwapScootch.plan_toPrimary s k (by omega) h2]
          simp only [MemoryLocation.mk.injEq, hPS, hPSc, hSSc, hSP, hScP, hScS2,
            eq_self_iff_true, true_and, and_true, false_and, and_false, if_false, if_true,
            ite_true, ite_false]
          split_ifs <;>
        first
          | rfl
          | omega
          | (simp_all only [MemoryLocation.mk.injEq, eq_self_iff_true, true_and, and_true];
              omega)
          | simp_all only [MemoryLocation.mk.injEq, eq_self_iff_true, true_and, and_true]
        · rw [SwapScootch.plan_toSecondary s k (by omega) (by omega)]
          simp only [MemoryLocation.mk.injEq, hPS, hPSc, hSSc, hSP, hScP, hScS2,
            eq_self_iff_true, true_and, and_true, false_and, and_false, if_false, if_true,
            ite_true, ite_false]
          split_ifs <;>
        first
          | rfl
          | omega
          | (simp_all only [MemoryLocation.mk.injEq, eq_self_iff_true, true_and, and_true];
              omega)
          | simp_all only [MemoryLocation.mk.injEq, eq_self_iff_true, true_and, and_true]
    rw [h0, List.map_congr_left hpt, sum_range_ind, hlast, if_pos (by omega)]

lemma divCeil_eq_div_add_one {N W : Nat} (hW : 0 < W) (hmod : N % W ≠ 0) :
    divCeil N W = N / W + 1 := by
  have hdm := Nat.div_add_mod N W
  have hmodlt : N % W < W := Nat.mod_lt _ hW
  have hWq : W * (N / W + 1) = W * (N / W) + W := by ring
  have hsplit : N + W - 1 = N % W - 1 + W * (N / W + 1) := by omega
  rw [divCeil, hsplit, Nat.add_mul_div_left _ _ hW, Nat.div_eq_of_lt (by omega)]
  omega

/-! ## The bootloader `State` codec (`examples/stm32g4/bootloader/src/state.rs`) -/

/-- `SerializationError` of `sequential_storage::map`, as produced by the codec. -/
inductive SerializationError where
  | BufferTooSmall
  | InvalidFormat
  | Custom (code : Int)
deriving DecidableEq, Repr

/-- The bootloader state enum of `examples/stm32g4/bootloader/src/state.rs`.
Variant order matches the Rust declaration; it determines the wire tag that
serde/postcard assigns to each variant. -/
inductive State where
  | Initial
  | Trialing (target old : Slot)
  | Failed (current failed : Slot)
  | Confirmed (target : Slot)
  | Request (current target : Slot)
  | Swapping (target old : Slot) (step : Nat)
  | Returning (failed old : Slot) (step : Nat)
deriving DecidableEq, Repr

/-- The `u8` / `u16` range constraints of the Rust field types (`Slot(pub u8)`,
`step: u16`): what it means for a `State` value of the embedding to be valid. -/
def State.valid : State → Prop
  | .Initial => True
  | .Trialing t o => t.val < 256 ∧ o.val < 256
  | .Failed c f => c.val < 256 ∧ f.val < 256
  | .Confirmed t => t.val < 256
  | .Request c t => c.val < 256 ∧ t.val < 256
  | .Swapping t o st => t.val < 256 ∧ o.val < 256 ∧ st < 65536
  | .Returning f o st => f.val < 256 ∧ o.val < 256 ∧ st < 65536

instance State.decValid (x : State) : Decidable x.valid := by
  cases x <;> simp only [State.valid] <;> infer_instance

/-- Modelled from the postcard wire format that `serialize_into` delegates to:
LEB128 varint encoding of an unsigned integer, low 7-bit group first, high bit
of a byte marking continuation. -/
def encodeVarint (n : Nat) : List Nat :=
  if n < 128 then [n] else (n % 128 + 128) :: encodeVarint (n / 128)
termination_by n
decreasing_by exact Nat.div_lt_self (by omega) (by omega)

/-- Modelled from postcard's `try_take_varint`: read up to `max_bytes` varint
bytes.  An empty buffer is `BufferTooSmall` (`DeserializeUnexpectedEnd`);
exceeding `max_bytes` continuation bytes is `InvalidFormat`
(`DeserializeBadVarint`). -/
def takeVarint : Nat → List Nat → Except SerializationError (Nat × List Nat)
  | 0, _ => .error .InvalidFormat
  | _ + 1, [] => .error .BufferTooSmall
  | max_bytes + 1, b :: rest =>
    if b < 128 then .ok (b, rest)
    else
      match takeVarint max_bytes rest with
      | .ok (v, rest2) => .ok (v * 128 + (b - 128), rest2)
      | .error e => .error e

/-- Read one raw byte (postcard `u8` deserialization). -/
def takeByte : List Nat → Except SerializationError (Nat × List Nat)
  | [] => .error .BufferTooSmall
  | b :: rest => .ok (b, rest)

/-- The postcard bytes `serialize_into` writes for a `State` value: a
`u32`-varint variant tag in declaration order, `Slot` (`u8`) fields as single
bytes, `step` (`u16`) fields as varints. -/
def State.encode : State → List Nat
  | .Initial => encodeVarint 0
  | .Trialing t o => encodeVarint 1 ++ [t.val, o.val]
  | .Failed c f => encodeVarint 2 ++ [c.val, f.val]
  | .Confirmed t => encodeVarint 3 ++ [t.val]
  | .Request c t => encodeVarint 4 ++ [c.val, t.val]
  | .Swapping t o st => encodeVarint 5 ++ [t.val, o.val] ++ encodeVarint st
  | .Returning f o st => encodeVarint 6 ++ [f.val, o.val] ++ encodeVarint st

/-- `State::max_serialized_size()` / `MAX_SERIALIZED_SIZE`: 64 bytes. -/
def MAX_SERIALIZED_SIZE : Nat := 64

/-- `serialize_into` over the 64-byte buffer: the postcard bytes, or
`BufferTooSmall` when they do not fit (postcard `SerializeBufferFull`). -/
def State.serialize_into (x : State) : Except SerializationError (List Nat) :=
  if (State.encode x).length ≤ MAX_SERIALIZED_SIZE then .ok (State.encode x)
  else .error .BufferTooSmall

/-- `deserialize_from` via postcard: parse the variant tag (a `u32` varint,
at most 5 bytes), then the variant's fields; an unknown tag is
`InvalidFormat` (postcard `DeserializeBadEnum`).  Trailing bytes are ignored,
as by `postcard::from_bytes`. -/
def State.deserialize_from (buffer : List Nat) : Except SerializationError State :=
  match takeVarint 5 buffer with
  | .error e => .error e
  | .ok (tag, r0) =>
    match tag with
    | 0 => .ok .Initial
    | 1 =>
      match takeByte r0 with
      | .error e => .error e
      | .ok (t, r1) =>
        match takeByte r1 with
        | .error e => .error e
        | .ok (o, _) => .ok (.Trialing ⟨t⟩ ⟨o⟩)
    | 2 =>
      match takeByte r0 with
      | .error e => .error e
      | .ok (c, r1) =>
        match takeByte r1 with
        | .error e => .error e
        | .ok (f, _) => .ok (.Failed ⟨c⟩ ⟨f⟩)
    | 3 =>
      match takeByte r0 with
      | .error e => .error e
      | .ok (t, _) => .ok (.Confirmed ⟨t⟩)
    | 4 =>
      match takeByte r0 with
      | .error e => .error e
      | .ok (c, r1) =>
        match takeByte r1 with
        | .error e => .error e
        | .ok (t, _) => .ok (.Request ⟨c⟩ ⟨t⟩)
    | 5 =>
      match takeByte r0 with
      | .error e => .error e
      | .ok (t, r1) =>
        match takeByte r1 with
        | .error e => .error e
        | .ok (o, r2) =>
          match takeVarint 3 r2 with
          | .error e => .error e
          | .ok (st, _) => .ok (.Swapping ⟨t⟩ ⟨o⟩ st)
    | 6 =>
      match takeByte r0 with
      | .error e => .error e
      | .ok (f, r1) =>
        match takeByte r1 with
        | .error e => .error e
        | .ok (o, r2) =>
          match takeVarint 3 r2 with
          | .error e => .error e
          | .ok (st, _) => .ok (.Returning ⟨f⟩ ⟨o⟩ st)
    | _ => .error .InvalidFormat

lemma encodeVarint_lt {n : Nat} (h : n < 128) : encodeVarint n = [n] := by
  rw [encodeVarint, if_pos h]

lemma encodeVarint_ge {n : Nat} (h : ¬ n < 128) :
    encodeVarint n = (n % 128 + 128) :: encodeVarint (n / 128) := by
  rw [encodeVarint]
  rw [if_neg h]

lemma encodeVarint_length_le_three {n : Nat} (h : n < 65536) :
    (encodeVarint n).length ≤ 3 := by
  by_cases h1 : n < 128
  · rw [encodeVarint_lt h1]; simp
  · rw [encodeVarint_ge h1]
    by_cases h2 : n / 128 < 128
    · rw [encodeVarint_lt h2]; simp
    · rw [encodeVarint_ge h2]
      have h3 : n / 128 / 128 < 128 := by omega
      rw [encodeVarint_lt h3]
      simp

/-- Parsing a varint encoding back: the encoded value and the rest of the
buffer, provided the fuel covers the encoding's length. -/
lemma takeVarint_encode :
    ∀ fuel n rest, (encodeVarint n).length ≤ fuel →
      takeVarint fuel (encodeVarint n ++ rest) = .ok (n, rest) := by
  intro fuel
  induction fuel with
  | zero =>
    intro n rest h
    exfalso
    by_cases h1 : n < 128
    · rw [encodeVarint_lt h1] at h; simp at h
    · rw [encodeVarint_ge h1] at h; simp at h
  | succ fuel ih =>
    intro n rest h
    by_cases h1 : n < 128
    · rw [encodeVarint_lt h1]
      show takeVarint (fuel + 1) (n :: rest) = .ok (n, rest)
      rw [takeVarint, if_pos h1]
    · rw [encodeVarint_ge h1] at h ⊢
      simp only [List.cons_append]
      rw [takeVarint, if_neg (by omega),
        ih (n / 128) rest (by simp at h; omega)]
      have hval : n / 128 * 128 + (n % 128 + 128 - 128) = n := by omega
      show Except.ok (n / 128 * 128 + (n % 128 + 128 - 128), rest) =
        (Except.ok (n, rest) : Except SerializationError (Nat × List Nat))
      rw [hval]

/-! ## Common execution helper for the Copy strategy -/

/-- Executing the full `Copy` plan overwrites each primary page with the
corresponding source page and touches nothing else. -/
lemma copy_run (c : Copy) (m : Mem) (hsp : c.request.slot_secondary ≠ c.slot_primary) :
    (∀ p, p < c.num_pages →
      runSteps c.plan m c.last_step ⟨c.slot_primary, p⟩ = m ⟨c.request.slot_secondary, p⟩) ∧
    (∀ ls lp, ls ≠ c.slot_primary → runSteps c.plan m c.last_step ⟨ls, lp⟩ = m ⟨ls, lp⟩) := by
  have hrun : runSteps c.plan m c.last_step = copyOps m (c.plan 0) := by
    show copyOps (runSteps c.plan m 0) (c.plan 0) = copyOps m (c.plan 0)
    rfl
  constructor
  · intro p hp
    rw [hrun, Copy.plan_eq, copyOps_blockOps' hsp, if_pos ⟨rfl, by omega, by omega⟩]
    have h : 0 + (p - 0) = p := by omega
    rw [h]
  · intro ls lp hls
    rw [hrun, Copy.plan_eq, copyOps_blockOps' hsp,
      if_neg (by rintro ⟨h, -, -⟩; exact hls h)]

/-! ## Concrete fixtures (the mock devices' geometry: 3 pages, slots 0/1/2) -/

/-- The `Copy` strategy of the `tri_slot` test: source `BETA`-like slot 1,
backup slot 2, primary slot 0, 3 pages. -/
def copyEx : Copy :=
  { request := { slot_secondary := ⟨1⟩, slot_backup := some ⟨2⟩ },
    num_pages := 3, slot_primary := ⟨0⟩ }

/-- The `SwapSABS` strategy of the `single_scratch` test: 3 pages, 1 scratch page. -/
def sabsEx : SwapSABS :=
  { slot_secondary := ⟨1⟩, num_pages := 3, scratch_pages := 1,
    slot_primary := ⟨0⟩, slot_scratch := ⟨2⟩ }

/-- The `SwapSABS` strategy of the `multi_scratch` test: 3 pages, 2 scratch pages. -/
def sabsEx2 : SwapSABS :=
  { slot_secondary := ⟨1⟩, num_pages := 3, scratch_pages := 2,
    slot_primary := ⟨0⟩, slot_scratch := ⟨2⟩ }

/-- The `SwapScootch` strategy of its test (`STRATEGY`): 3 pages, slots 0/1/2. -/
def scootchEx : SwapScootch :=
  { num_pages := 3, slot_primary := ⟨0⟩, slot_secondary := ⟨1⟩, slot_scratch := ⟨2⟩ }

/-- A concrete device content assigning every location a distinct value. -/
def memEx : Mem := fun loc => 100 * loc.slot.val + loc.page

/-! ## The claims -/

/-- C1: For every strategy (Copy, SwapSABS, SwapScootch) constructed over a
device whose primary, secondary and scratch slot roles are pairwise distinct,
and for every step `k < last_step`: executing every copy operation of
`plan(k)` on the device and then executing `plan(k)` in full a second time
leaves the device's slot contents in the same state as executing `plan(k)`
once. -/
theorem c1_step_replay_idempotent
    (c : Copy) (sb : SwapSABS) (sc : SwapScootch) (m : Mem)
    (hc : c.request.slot_secondary ≠ c.slot_primary)
    (hb1 : sb.slot_primary ≠ sb.slot_secondary)
    (hb2 : sb.slot_primary ≠ sb.slot_scratch)
    (hb3 : sb.slot_secondary ≠ sb.slot_scratch)
    (hs1 : sc.slot_primary ≠ sc.slot_secondary)
    (hs2 : sc.slot_primary ≠ sc.slot_scratch)
    (hs3 : sc.slot_secondary ≠ sc.slot_scratch)
    (k1 k2 k3 : Nat)
    (hk1 : k1 < c.last_step) (hk2 : k2 < sb.last_step) (hk3 : k3 < sc.last_step) :
    copyOps (copyOps m (c.plan k1)) (c.plan k1) = copyOps m (c.plan k1) ∧
    copyOps (copyOps m (sb.plan k2)) (sb.plan k2) = copyOps m (sb.plan k2) ∧
    copyOps (copyOps m (sc.planList k3)) (sc.planList k3) = copyOps m (sc.planList k3) := by
  refine ⟨?_, ?_, ?_⟩
  · rw [Copy.plan_eq]
    exact copyOps_blockOps_idem hc m 0 0 c.num_pages
  · have h3 : k2 % 3 = 0 ∨ k2 % 3 = 1 ∨ k2 % 3 = 2 := by omega
    rcases h3 with h | h | h
    · rw [SwapSABS.plan_A2S sb k2 h]
      exact copyOps_blockOps_idem hb2 m _ _ _
    · rw [SwapSABS.plan_B2A sb k2 h]
      exact copyOps_blockOps_idem (Ne.symm hb1) m _ _ _
    · rw [SwapSABS.plan_S2B sb k2 h]
      exact copyOps_blockOps_idem (Ne.symm hb3) m _ _ _
  · show copyOp (copyOp m (sc.plan k3)) (sc.plan k3) = copyOp m (sc.plan k3)
    exact copyOp_idem _ m

theorem c1_witness :
    copyOps (copyOps memEx (copyEx.plan 0)) (copyEx.plan 0) = copyOps memEx (copyEx.plan 0) :=
  (c1_step_replay_idempotent copyEx sabsEx scootchEx memEx (by decide) (by decide)
    (by decide) (by decide) (by decide) (by decide) (by decide) 0 0 0
    (by decide) (by decide) (by decide)).1

/-- C2: For SwapSABS over a device whose primary slot holds image A and whose
secondary slot holds image B: executing every step in `[0, last_step)` leaves
primary = B and secondary = A; `revert` returns `Some` of the unchanged
strategy, and executing the reverted strategy's full plan on the resulting
state restores primary = A and secondary = B (the swap is an involution). -/
theorem c2_sabs_swap_involution (s : SwapSABS) (m : Mem)
    (hN : 0 < s.num_pages) (hW : 0 < s.scratch_pages)
    (hPS : s.slot_primary ≠ s.slot_secondary)
    (hPSc : s.slot_primary ≠ s.slot_scratch)
    (hSSc : s.slot_secondary ≠ s.slot_scratch) :
    (∀ p, p < s.num_pages →
      runSteps s.plan m s.last_step ⟨s.slot_primary, p⟩ = m ⟨s.slot_secondary, p⟩ ∧
      runSteps s.plan m s.last_step ⟨s.slot_secondary, p⟩ = m ⟨s.slot_primary, p⟩) ∧
    s.revert = some s ∧
    (∀ p, p < s.num_pages →
      runSteps s.plan (runSteps s.plan m s.last_step) s.last_step ⟨s.slot_primary, p⟩ =
        m ⟨s.slot_primary, p⟩ ∧
      runSteps s.plan (runSteps s.plan m s.last_step) s.last_step ⟨s.slot_secondary, p⟩ =
        m ⟨s.slot_secondary, p⟩) := by
  have hmain : ∀ (m2 : Mem) p, p < s.num_pages →
      runSteps s.plan m2 s.last_step ⟨s.slot_primary, p⟩ = m2 ⟨s.slot_secondary, p⟩ ∧
      runSteps s.plan m2 s.last_step ⟨s.slot_secondary, p⟩ = m2 ⟨s.slot_primary, p⟩ := by
    intro m2 p hp
    have hls : s.last_step = 3 * divCeil s.num_pages s.scratch_pages := by
      show divCeil s.num_pages s.scratch_pages * 3 = _
      ring
    have hinv := sabs_invariant s m2 hN hW hPS hPSc hSSc
      (divCeil s.num_pages s.scratch_pages) le_rfl p
    have hmin : min (divCeil s.num_pages s.scratch_pages * s.scratch_pages) s.num_pages =
        s.num_pages := min_eq_right (divCeil_mul_ge hW hN)
    rw [hmin] at hinv
    rw [hls]
    exact ⟨by rw [hinv.1, if_pos hp], by rw [hinv.2, if_pos hp]⟩
  refine ⟨fun p hp => hmain m p hp, rfl, fun p hp => ?_⟩
  constructor
  · rw [(hmain _ p hp).1, (hmain m p hp).2]
  · rw [(hmain _ p hp).2, (hmain m p hp).1]

theorem c2_witness :
    runSteps sabsEx.plan memEx sabsEx.last_step ⟨⟨0⟩, 1⟩ = memEx ⟨⟨1⟩, 1⟩ :=
  ((c2_sabs_swap_involution sabsEx memEx (by decide) (by decide) (by decide)
    (by decide) (by decide)).1 1 (by decide)).1

/-- C3: For SwapSABS with `N = num_pages` and `W = scratch_pages`, `last_step`
equals `3 * ⌈N / W⌉`, and for every step of the final block with `N` not a
multiple of `W`, `plan(step)` emits exactly `min(pages_left, W) = N mod W`
copy operations; no emitted operation of any in-contract step addresses a page
index at or beyond `N` in primary or secondary. -/
theorem c3_sabs_last_step_tail (s : SwapSABS)
    (hN : 0 < s.num_pages) (hW : 0 < s.scratch_pages)
    (hPS : s.slot_primary ≠ s.slot_secondary)
    (hPSc : s.slot_primary ≠ s.slot_scratch)
    (hSSc : s.slot_secondary ≠ s.slot_scratch) :
    s.last_step = 3 * divCeil s.num_pages s.scratch_pages ∧
    (s.num_pages % s.scratch_pages ≠ 0 →
      ∀ step, step < s.last_step →
        step / 3 = divCeil s.num_pages s.scratch_pages - 1 →
        (s.plan step).length = s.num_pages % s.scratch_pages) ∧
    (∀ step, step < s.last_step → ∀ op ∈ s.plan step,
      ((op.from_.slot = s.slot_primary ∨ op.from_.slot = s.slot_secondary) →
        op.from_.page < s.num_pages) ∧
      ((op.to_.slot = s.slot_primary ∨ op.to_.slot = s.slot_secondary) →
        op.to_.page < s.num_pages)) := by
  have hls : s.last_step = 3 * divCeil s.num_pages s.scratch_pages := by
    show divCeil s.num_pages s.scratch_pages * 3 = _
    ring
  have hlen : ∀ step, (s.plan step).length =
      min (s.num_pages - step / 3 * s.scratch_pages) s.scratch_pages := by
    intro step
    have h3 : step % 3 = 0 ∨ step % 3 = 1 ∨ step % 3 = 2 := by omega
    rcases h3 with h | h | h
    · rw [SwapSABS.plan_A2S s step h, blockOps_length]
    · rw [SwapSABS.plan_B2A s step h, blockOps_length]
    · rw [SwapSABS.plan_S2B s step h, blockOps_length]
  refine ⟨hls, fun hmod step hstep hfin => ?_, fun step hstep op hop => ?_⟩
  · rw [hlen step]
    have hblocks := divCeil_eq_div_add_one hW hmod
    have hq : step / 3 = s.num_pages / s.scratch_pages := by omega
    rw [hq]
    have hdm := Nat.div_add_mod s.num_pages s.scratch_pages
    have hmodlt : s.num_pages % s.scratch_pages < s.scratch_pages := Nat.mod_lt _ hW
    have hcomm : s.scratch_pages * (s.num_pages / s.scratch_pages) =
        s.num_pages / s.scratch_pages * s.scratch_pages := Nat.mul_comm _ _
    rw [Nat.min_def]
    split_ifs <;> omega
  · have hstep3 : step / 3 < divCeil s.num_pages s.scratch_pages := by
      rw [hls] at hstep
      omega
    have hstart : step / 3 * s.scratch_pages < s.num_pages :=
      mul_lt_of_lt_divCeil hW hstep3
    have h3 : step % 3 = 0 ∨ step % 3 = 1 ∨ step % 3 = 2 := by omega
    rcases h3 with h | h | h <;>
    · first
      | rw [SwapSABS.plan_A2S s step h] at hop
      | rw [SwapSABS.plan_B2A s step h] at hop
      | rw [SwapSABS.plan_S2B s step h] at hop
      rw [blockOps, List.mem_map] at hop
      obtain ⟨i, hi, rfl⟩ := hop
      dsimp only
      rw [List.mem_range] at hi
      have hile : i < s.num_pages - step / 3 * s.scratch_pages :=
        lt_of_lt_of_le hi (min_le_left _ _)
      constructor <;>
      · rintro (hsl | hsl) <;>
          first
            | omega
            | exact absurd hsl hPSc
            | exact absurd hsl (Ne.symm hPSc)
            | exact absurd hsl hSSc
            | exact absurd hsl (Ne.symm hSSc)
            | exact absurd hsl hPS
            | exact absurd hsl (Ne.symm hPS)

theorem c3_witness :
    sabsEx2.last_step = 3 * divCeil sabsEx2.num_pages sabsEx2.scratch_pages :=
  (c3_sabs_last_step_tail sabsEx2 (by decide) (by decide) (by decide) (by decide)
    (by decide)).1

/-- C4: For SwapScootch with `num_pages = N`: `last_step = 3*N`; for each step
in `[0, N)` the plan copies `primary[step]` to `primary[step-1]` (to scratch
page 0 when `step = 0`); for each step in `[N, 3*N)` the plan decodes
`r = step - N` and `p = N - r/2 - 1`, copying `secondary[p]` to `primary[p]`
when `r` is even and `primary[p-1]` (scratch page 0 when `p = 0`) to
`secondary[p]` when `r` is odd; executing all steps from primary = A,
secondary = B ends with primary = B and secondary = A. -/
theorem c4_scootch_plan_swap (s : SwapScootch) (m : Mem)
    (hN : 0 < s.num_pages)
    (hPS : s.slot_primary ≠ s.slot_secondary)
    (hPSc : s.slot_primary ≠ s.slot_scratch)
    (hSSc : s.slot_secondary ≠ s.slot_scratch) :
    s.last_step = 3 * s.num_pages ∧
    (∀ k, k < s.num_pages → s.plan k =
      { from_ := ⟨s.slot_primary, k⟩,
        to_ := if k = 0 then ⟨s.slot_scratch, 0⟩ else ⟨s.slot_primary, k - 1⟩ }) ∧
    (∀ k, s.num_pages ≤ k → k < 3 * s.num_pages →
      ((k - s.num_pages) % 2 = 0 → s.plan k =
        { from_ := ⟨s.slot_secondary, s.num_pages - (k - s.num_pages) / 2 - 1⟩,
          to_ := ⟨s.slot_primary, s.num_pages - (k - s.num_pages) / 2 - 1⟩ }) ∧
      ((k - s.num_pages) % 2 = 1 → s.plan k =
        { from_ := if s.num_pages - (k - s.num_pages) / 2 - 1 = 0 then ⟨s.slot_scratch, 0⟩
            else ⟨s.slot_primary, s.num_pages - (k - s.num_pages) / 2 - 1 - 1⟩,
          to_ := ⟨s.slot_secondary, s.num_pages - (k - s.num_pages) / 2 - 1⟩ })) ∧
    (∀ p, p < s.num_pages →
      runSteps s.planList m s.last_step ⟨s.slot_primary, p⟩ = m ⟨s.slot_secondary, p⟩ ∧
      runSteps s.planList m s.last_step ⟨s.slot_secondary, p⟩ = m ⟨s.slot_primary, p⟩) := by
  refine ⟨by show s.num_pages * 3 = _; ring,
    fun k hk => SwapScootch.plan_scootch s k hk,
    fun k h1 h2 => ⟨fun he => SwapScootch.plan_toPrimary s k h1 he,
      fun ho => SwapScootch.plan_toSecondary s k h1 ho⟩,
    fun p hp => ?_⟩
  have he : s.last_step = s.num_pages + 2 * s.num_pages := by
    show s.num_pages * 3 = _
    ring
  have hrunP := scootch_pairwise_run s m hN hPS hPSc hSSc s.num_pages le_rfl
    s.slot_primary p
  have hrunS := scootch_pairwise_run s m hN hPS hPSc hSSc s.num_pages le_rfl
    s.slot_secondary p
  rw [if_pos rfl, if_pos ⟨by omega, hp⟩] at hrunP
  rw [if_neg (Ne.symm hPS), if_pos rfl, if_pos ⟨by omega, hp⟩] at hrunS
  rw [he]
  exact ⟨hrunP, hrunS⟩

theorem c4_witness :
    runSteps scootchEx.planList memEx scootchEx.last_step ⟨⟨0⟩, 2⟩ = memEx ⟨⟨1⟩, 2⟩ :=
  ((c4_scootch_plan_swap scootchEx memEx (by decide) (by decide) (by decide)
    (by decide)).2.2.2 2 (by decide)).1

/-- C5: Across the full SwapSABS plan with `N = num_pages`, `W = scratch_pages`,
each page of the primary slot and each page of the secondary slot is the
destination of exactly one copy operation, and the scratch page (page 0 of the
scratch slot) is the destination of exactly `⌈N/W⌉` copy operations. -/
theorem c5_sabs_wear (s : SwapSABS)
    (hN : 0 < s.num_pages) (hW : 0 < s.scratch_pages)
    (hPS : s.slot_primary ≠ s.slot_secondary)
    (hPSc : s.slot_primary ≠ s.slot_scratch)
    (hSSc : s.slot_secondary ≠ s.slot_scratch) :
    (∀ p, p < s.num_pages → destCount s.plan s.last_step ⟨s.slot_primary, p⟩ = 1) ∧
    (∀ p, p < s.num_pages → destCount s.plan s.last_step ⟨s.slot_secondary, p⟩ = 1) ∧
    destCount s.plan s.last_step ⟨s.slot_scratch, 0⟩ =
      divCeil s.num_pages s.scratch_pages := by
  obtain ⟨h1, h2, h3⟩ := sabs_destCount s hW hPS hPSc hSSc
    (divCeil s.num_pages s.scratch_pages) le_rfl
  have hls : s.last_step = 3 * divCeil s.num_pages s.scratch_pages := by
    show divCeil s.num_pages s.scratch_pages * 3 = _
    ring
  have hmin : min (divCeil s.num_pages s.scratch_pages * s.scratch_pages) s.num_pages =
      s.num_pages := min_eq_right (divCeil_mul_ge hW hN)
  refine ⟨fun p hp => ?_, fun p hp => ?_, ?_⟩
  · rw [hls, h1 p, hmin, if_pos hp]
  · rw [hls, h2 p, hmin, if_pos hp]
  · rw [hls, h3]

theorem c5_witness :
    destCount sabsEx.plan sabsEx.last_step ⟨⟨2⟩, 0⟩ =
      divCeil sabsEx.num_pages sabsEx.scratch_pages :=
  (c5_sabs_wear sabsEx (by decide) (by decide) (by decide) (by decide) (by decide)).2.2

/-- C6 (counterexample): it is NOT the case that every page of the primary slot
is the destination of exactly 2 copy operations across the full SwapScootch
plan: in the 3-page test geometry, primary page 2 (the last page) is the
destination of exactly one copy operation. -/
theorem c6_counterexample :
    ¬ (∀ p, p < scootchEx.num_pages →
        destCount scootchEx.planList scootchEx.last_step
          ⟨scootchEx.slot_primary, p⟩ = 2) := by
  decide

/-- C6 (amended): Across the full SwapScootch plan with `N = num_pages`, every
page of the primary slot except the last is the destination of exactly 2 copy
operations, the last primary page `N-1` of exactly 1, every page of the
secondary slot of exactly 1, and the scratch page of exactly 1, independent of
`N`. -/
theorem c6_scootch_wear_amended (s : SwapScootch) (hN : 0 < s.num_pages)
    (hPS : s.slot_primary ≠ s.slot_secondary)
    (hPSc : s.slot_primary ≠ s.slot_scratch)
    (hSSc : s.slot_secondary ≠ s.slot_scratch) :
    (∀ p, p + 1 < s.num_pages →
      destCount s.planList s.last_step ⟨s.slot_primary, p⟩ = 2) ∧
    destCount s.planList s.last_step ⟨s.slot_primary, s.num_pages - 1⟩ = 1 ∧
    (∀ p, p < s.num_pages →
      destCount s.planList s.last_step ⟨s.slot_secondary, p⟩ = 1) ∧
    destCount s.planList s.last_step ⟨s.slot_scratch, 0⟩ = 1 :=
  scootch_destCount s hN hPS hPSc hSSc

theorem c6_witness :
    destCount scootchEx.planList scootchEx.last_step
      ⟨⟨0⟩, scootchEx.num_pages - 1⟩ = 1 :=
  (c6_scootch_wear_amended scootchEx (by decide) (by decide) (by decide)
    (by decide)).2.1

/-- C7: For the Copy strategy, `last_step = 1` and `plan(0)` emits, in
increasing page order, `CopyOperation{from: (source, p), to: (primary, p)}`
for every `p ∈ [0, num_pages)`; executing this plan in full makes the primary
slot's contents equal to the source slot's contents, while the source slot and
every slot other than primary are left unchanged. -/
theorem c7_copy_full (c : Copy) (m : Mem)
    (hsp : c.request.slot_secondary ≠ c.slot_primary) :
    c.last_step = 1 ∧
    c.plan 0 = (List.range c.num_pages).map (fun page =>
      { from_ := ⟨c.request.slot_secondary, page⟩, to_ := ⟨c.slot_primary, page⟩ }) ∧
    (∀ p, p < c.num_pages →
      runSteps c.plan m c.last_step ⟨c.slot_primary, p⟩ =
        m ⟨c.request.slot_secondary, p⟩) ∧
    (∀ ls lp, ls ≠ c.slot_primary → runSteps c.plan m c.last_step ⟨ls, lp⟩ = m ⟨ls, lp⟩) :=
  ⟨rfl, rfl, (copy_run c m hsp).1, (copy_run c m hsp).2⟩

theorem c7_witness :
    runSteps copyEx.plan memEx copyEx.last_step ⟨⟨0⟩, 0⟩ = memEx ⟨⟨1⟩, 0⟩ :=
  (c7_copy_full copyEx memEx (by decide)).2.2.1 0 (by decide)

/-- The Copy strategy that `Copy::revert` constructs when a backup slot `b`
was provided: copy from `b`, no further backup, same geometry. -/
def revertedCopy (c : Copy) (b : Slot) : Copy :=
  { request := { slot_secondary := b, slot_backup := none },
    num_pages := c.num_pages, slot_primary := c.slot_primary }

/-- C8: `Copy::revert` returns `Some` exactly when the original request
provided a backup slot, and the returned strategy is a Copy with
`source := backup` and `backup := None` (same `num_pages` and primary); with
no backup, `revert` returns `None`; executing the reverted strategy's full
plan restores the primary slot to the backup slot's contents. -/
theorem c8_copy_revert (c : Copy) (m : Mem) :
    (c.request.slot_backup = none → c.revert = none) ∧
    (∀ b : Slot, c.request.slot_backup = some b →
      c.revert = some (revertedCopy c b) ∧
      (b ≠ c.slot_primary → ∀ p, p < c.num_pages →
        runSteps (revertedCopy c b).plan m (revertedCopy c b).last_step
          ⟨c.slot_primary, p⟩ = m ⟨b, p⟩)) := by
  constructor
  · intro hb
    rw [Copy.revert, hb]
  · intro b hb
    constructor
    · rw [Copy.revert, hb]
      rfl
    · intro hbp p hp
      exact (copy_run (revertedCopy c b) m hbp).1 p hp

theorem c8_witness :
    runSteps (revertedCopy copyEx ⟨2⟩).plan memEx (revertedCopy copyEx ⟨2⟩).last_step
      ⟨copyEx.slot_primary, 1⟩ = memEx ⟨⟨2⟩, 1⟩ :=
  (((c8_copy_revert copyEx memEx).2 ⟨2⟩ rfl).2 (by decide) 1 (by decide))

lemma State.encode_length_le (x : State) (hx : x.valid) :
    (State.encode x).length ≤ 6 := by
  cases x with
  | Initial =>
    simp only [State.encode]
    rw [encodeVarint_lt (show (0 : Nat) < 128 by omega)]
    simp
  | Trialing t o =>
    simp only [State.encode]
    rw [encodeVarint_lt (show (1 : Nat) < 128 by omega)]
    simp
  | Failed c f =>
    simp only [State.encode]
    rw [encodeVarint_lt (show (2 : Nat) < 128 by omega)]
    simp
  | Confirmed t =>
    simp only [State.encode]
    rw [encodeVarint_lt (show (3 : Nat) < 128 by omega)]
    simp
  | Request c t =>
    simp only [State.encode]
    rw [encodeVarint_lt (show (4 : Nat) < 128 by omega)]
    simp
  | Swapping t o st =>
    obtain ⟨h1, h2, h3⟩ := hx
    simp only [State.encode]
    rw [encodeVarint_lt (show (5 : Nat) < 128 by omega)]
    have hv := encodeVarint_length_le_three h3
    simp only [List.append_assoc, List.length_append, List.length_cons, List.length_nil]
    omega
  | Returning f o st =>
    obtain ⟨h1, h2, h3⟩ := hx
    simp only [State.encode]
    rw [encodeVarint_lt (show (6 : Nat) < 128 by omega)]
    have hv := encodeVarint_length_le_three h3
    simp only [List.append_assoc, List.length_append, List.length_cons, List.length_nil]
    omega

/-- C9: For every valid `State` value whose serialized form fits the 64-byte
maximum buffer, `deserialize_from` applied to the bytes produced by
`serialize_into` returns `Ok` of a value equal to the original (the codec
round-trip law). -/
theorem c9_state_codec_round_trip (x : State) (hx : x.valid) :
    State.serialize_into x = .ok (State.encode x) ∧
    (State.encode x).length ≤ MAX_SERIALIZED_SIZE ∧
    State.deserialize_from (State.encode x) = .ok x := by
  have hlen : (State.encode x).length ≤ MAX_SERIALIZED_SIZE := by
    have h := State.encode_length_le x hx
    rw [MAX_SERIALIZED_SIZE]
    omega
  refine ⟨by rw [State.serialize_into, if_pos hlen], hlen, ?_⟩
  cases x with
  | Initial =>
    simp only [State.encode]
    rw [encodeVarint_lt (show (0 : Nat) < 128 by omega)]
    rfl
  | Trialing t o =>
    simp only [State.encode]
    rw [encodeVarint_lt (show (1 : Nat) < 128 by omega)]
    rfl
  | Failed c f =>
    simp only [State.encode]
    rw [encodeVarint_lt (show (2 : Nat) < 128 by omega)]
    rfl
  | Confirmed t =>
    simp only [State.encode]
    rw [encodeVarint_lt (show (3 : Nat) < 128 by omega)]
    rfl
  | Request c t =>
    simp only [State.encode]
    rw [encodeVarint_lt (show (4 : Nat) < 128 by omega)]
    rfl
  | Swapping t o st =>
    obtain ⟨h1, h2, h3⟩ := hx
    simp only [State.encode]
    rw [encodeVarint_lt (show (5 : Nat) < 128 by omega)]
    have hst : takeVarint 3 (encodeVarint st) = .ok (st, []) := by
      have h := takeVarint_encode 3 st [] (encodeVarint_length_le_three h3)
      rwa [List.append_nil] at h
    show (match takeVarint 3 (encodeVarint st) with
      | .error e => (.error e : Except SerializationError State)
      | .ok (st2, _) => .ok (.Swapping ⟨t.val⟩ ⟨o.val⟩ st2)) = .ok (.Swapping t o st)
    rw [hst]
  | Returning f o st =>
    obtain ⟨h1, h2, h3⟩ := hx
    simp only [State.encode]
    rw [encodeVarint_lt (show (6 : Nat) < 128 by omega)]
    have hst : takeVarint 3 (encodeVarint st) = .ok (st, []) := by
      have h := takeVarint_encode 3 st [] (encodeVarint_length_le_three h3)
      rwa [List.append_nil] at h
    show (match takeVarint 3 (encodeVarint st) with
      | .error e => (.error e : Except SerializationError State)
      | .ok (st2, _) => .ok (.Returning ⟨f.val⟩ ⟨o.val⟩ st2)) = .ok (.Returning f o st)
    rw [hst]

theorem c9_witness :
    State.deserialize_from (State.encode (State.Swapping ⟨0⟩ ⟨1⟩ 300)) =
      .ok (State.Swapping ⟨0⟩ ⟨1⟩ 300) :=
  (c9_state_codec_round_trip (State.Swapping ⟨0⟩ ⟨1⟩ 300) (by decide)).2.2

/-- C10: For every `num_pages = N ≥ 1` and every step with `step < 3*N`,
SwapScootch's `Phase::from_step` evaluates totally: the `u16` subtractions
`step - num_pages` and `num_pages - (step'/2) - 1` never underflow (the
embedding's `Nat` subtractions coincide with the `u16` ones) and the
resulting page index lies in `[0, N)`, so `plan(step)` yields a well-defined
`CopyOperation` whose page indices are below `N` for every in-contract step. -/
theorem c10_scootch_from_step_total (N : Nat) (hN : 1 ≤ N)
    (step : Nat) (hstep : step < 3 * N) :
    (step < N → ScootchPhase.from_step step N = .Scootch step) ∧
    (N ≤ step →
      (step - N) / 2 + 1 ≤ N ∧
      ((step - N) % 2 = 0 →
        ScootchPhase.from_step step N = .ToPrimary (N - (step - N) / 2 - 1)) ∧
      ((step - N) % 2 = 1 →
        ScootchPhase.from_step step N = .ToSecondary (N - (step - N) / 2 - 1)) ∧
      N - (step - N) / 2 - 1 < N) ∧
    (∀ sc : SwapScootch, sc.num_pages = N →
      (sc.plan step).from_.page < N ∧ (sc.plan step).to_.page < N) := by
  refine ⟨fun hlt => by rw [ScootchPhase.from_step, if_pos hlt], fun hge => ?_, ?_⟩
  · refine ⟨by omega, fun he => ?_, fun ho => ?_, by omega⟩
    · rw [ScootchPhase.from_step, if_neg (by omega)]
      simp only [he, eq_self_iff_true, if_true, ite_true]
    · rw [ScootchPhase.from_step, if_neg (by omega)]
      rw [if_neg (by omega)]
  · intro sc hsc
    subst hsc
    by_cases h1 : step < sc.num_pages
    · rw [SwapScootch.plan_scootch sc step h1]
      by_cases h0 : step = 0
      · subst h0
        refine ⟨?_, ?_⟩ <;> (simp <;> omega)
      · rw [if_neg h0]
        refine ⟨?_, ?_⟩ <;> (simp <;> omega)
    · by_cases h2 : (step - sc.num_pages) % 2 = 0
      · rw [SwapScootch.plan_toPrimary sc step (by omega) h2]
        refine ⟨?_, ?_⟩ <;> (simp <;> omega)
      · rw [SwapScootch.plan_toSecondary sc step (by omega) (by omega)]
        refine ⟨?_, by simp <;> omega⟩
        by_cases hp0 : sc.num_pages - (step - sc.num_pages) / 2 - 1 = 0
        · rw [if_pos hp0]
          simp <;> omega
        · rw [if_neg hp0]
          simp <;> omega

theorem c10_witness :
    (4 - 3) / 2 + 1 ≤ 3 ∧
    ScootchPhase.from_step 4 3 = .ToSecondary (3 - (4 - 3) / 2 - 1) ∧
    3 - (4 - 3) / 2 - 1 < 3 := by
  have h := (c10_scootch_from_step_total 3 (by decide) 4 (by decide)).2.1 (by decide)
  exact ⟨h.1, h.2.2.1 (by decide), h.2.2.2⟩

end Bootlick
